import Mathlib

/-!
Shallow embedding of the statsport-automation extraction pipeline
(`src/extract_statsports_data.py`, `src/update_mason_mount.py`,
`src/combine_runs.py`) together with proofs about its specification.

Conventions used throughout:
* `datetime` instants are modelled as seconds (`Nat`); naive datetime
  arithmetic in Python is plain second arithmetic, so `timedelta(days=1)`
  is `86400` and `timedelta(hours=1)` is `3600`.
* Calendar-date strings (`"YYYY-MM-DD"`) are modelled as `String`s.
* Python dictionaries are modelled as association lists with unique keys;
  lookups take the first matching key, mirroring dict semantics.
* Fallible collaborator calls are modelled by `Option`: `none` is the
  "failed / returned None" outcome, `some l` a successful JSON list reply.
* Python's stable sorts (`sorted`, Timsort) are modelled by insertion sort,
  which is also stable; string comparison is code-point lexicographic,
  exactly Python's string order.
-/

namespace Statsport

/-- A primitive JSON scalar, the value type of the flat dictionaries used as
deduplication signatures and CSV cells. -/
inductive PVal where
  | vnull : PVal
  | vbool : Bool → PVal
  | vnum : Int → PVal
  | vstr : String → PVal
deriving DecidableEq

/-- A flat JSON object (Python `dict`), e.g. a record's `sessionDetails`
substructure. -/
abbrev SDict := List (String × PVal)

/-- Codepoint-wise strict lexicographic comparison on character lists.
Python compares strings by Unicode code point, which is exactly this order
on the underlying character sequences. -/
def charsLt : List Char → List Char → Bool
  | [], [] => false
  | [], _ :: _ => true
  | _ :: _, [] => false
  | a :: as, b :: bs =>
    if a.toNat < b.toNat then true
    else if b.toNat < a.toNat then false
    else charsLt as bs

/-- Python's `<` on strings (code-point lexicographic). -/
def strLt (a b : String) : Bool := charsLt a.data b.data

/-- Python's `<=` on strings. -/
def strLe (a b : String) : Bool := !(strLt b a)

theorem charsLt_irrefl : ∀ l : List Char, charsLt l l = false
  | [] => rfl
  | a :: as => by simp [charsLt, charsLt_irrefl as]

theorem charsLt_trans : ∀ {a b c : List Char},
    charsLt a b = true → charsLt b c = true → charsLt a c = true
  | [], _ :: _, _ :: _, _, _ => rfl
  | a :: as, b :: bs, c :: cs, h₁, h₂ => by
    simp only [charsLt] at h₁ h₂ ⊢
    by_cases hab : a.toNat < b.toNat
    · by_cases hbc : b.toNat < c.toNat
      · rw [if_pos (Nat.lt_trans hab hbc)]
      · by_cases hcb : c.toNat < b.toNat
        · rw [if_neg hbc, if_pos hcb] at h₂
          exact absurd h₂ (by simp)
        · have hbc' : b.toNat = c.toNat :=
            Nat.le_antisymm (Nat.le_of_not_lt hcb) (Nat.le_of_not_lt hbc)
          rw [if_pos (hbc' ▸ hab)]
    · by_cases hba : b.toNat < a.toNat
      · rw [if_neg hab, if_pos hba] at h₁
        exact absurd h₁ (by simp)
      · have hab' : a.toNat = b.toNat :=
          Nat.le_antisymm (Nat.le_of_not_lt hba) (Nat.le_of_not_lt hab)
        rw [if_neg hab, if_neg hba] at h₁
        by_cases hbc : b.toNat < c.toNat
        · rw [if_pos (hab' ▸ hbc)]
        · by_cases hcb : c.toNat < b.toNat
          · rw [if_neg hbc, if_pos hcb] at h₂
            exact absurd h₂ (by simp)
          · rw [if_neg hbc, if_neg hcb] at h₂
            rw [if_neg (hab' ▸ hbc), if_neg (hab' ▸ hcb)]
            exact charsLt_trans h₁ h₂

theorem Char.toNat_injective {a b : Char} (h : a.toNat = b.toNat) : a = b := by
  rw [← Char.ofNat_toNat a, h, Char.ofNat_toNat]

theorem charsLt_connex : ∀ {a b : List Char},
    charsLt a b = false → charsLt b a = false → a = b
  | [], [], _, _ => rfl
  | [], _ :: _, h, _ => by simp [charsLt] at h
  | _ :: _, [], _, h => by simp [charsLt] at h
  | a :: as, b :: bs, h₁, h₂ => by
    simp only [charsLt] at h₁ h₂
    by_cases hab : a.toNat < b.toNat
    · rw [if_pos hab] at h₁
      exact absurd h₁ (by simp)
    · by_cases hba : b.toNat < a.toNat
      · rw [if_pos hba] at h₂
        exact absurd h₂ (by simp)
      · rw [if_neg hab, if_neg hba] at h₁
        rw [if_neg hba, if_neg hab] at h₂
        have hc : a = b :=
          Char.toNat_injective
            (Nat.le_antisymm (Nat.le_of_not_lt hba) (Nat.le_of_not_lt hab))
        rw [hc, charsLt_connex h₁ h₂]

theorem charsLt_asymm {a b : List Char} (h : charsLt a b = true) :
    charsLt b a = false := by
  cases h' : charsLt b a with
  | false => rfl
  | true =>
    have := charsLt_trans h h'
    rw [charsLt_irrefl] at this
    exact absurd this (by simp)

theorem strLe_total (a b : String) : strLe a b = true ∨ strLe b a = true := by
  unfold strLe strLt
  cases h : charsLt b.data a.data with
  | false => left; simp
  | true => right; simp [charsLt_asymm h]

theorem strLe_trans {a b c : String} (h₁ : strLe a b = true)
    (h₂ : strLe b c = true) : strLe a c = true := by
  unfold strLe strLt at h₁ h₂ ⊢
  simp only [Bool.not_eq_true'] at h₁ h₂
  simp only [Bool.not_eq_true']
  cases h : charsLt c.data a.data with
  | false => rfl
  | true =>
    exfalso
    cases hbc : charsLt b.data c.data with
    | false =>
      have hcb : c.data = b.data := charsLt_connex h₂ hbc
      rw [hcb] at h
      rw [h] at h₁
      cases h₁
    | true =>
      have := charsLt_trans hbc h
      rw [this] at h₁
      cases h₁

/-- Sort a list of strings ascending, as Python's `sorted` does (Timsort is
stable; insertion sort is the stable reference model). -/
def sortedStrings (l : List String) : List String :=
  List.insertionSort (fun a b => strLe a b = true) l

/-- JSON string escaping for the characters that matter for injectivity of
the serialization (`json.dumps` escapes more, but none of the claims depend
on the escaping of control characters). -/
def escapeChar (c : Char) : String :=
  if c.toNat = 34 then "\\\"" else if c.toNat = 92 then "\\\\" else String.singleton c

def jsonQuote (s : String) : String :=
  "\"" ++ String.join (s.data.map escapeChar) ++ "\""

/-- Serialization of a JSON scalar, as `json.dumps` renders it. -/
def pvalDumps : PVal → String
  | .vnull => "null"
  | .vbool true => "true"
  | .vbool false => "false"
  | .vnum n => toString n
  | .vstr s => jsonQuote s

/-- Serialization `json.dumps(d, sort_keys=True)` on a flat dict: entries sorted by key,
rendered `"k": v` and joined with `", "` inside braces. -/
def sdictDumps (d : SDict) : String :=
  let entries := List.insertionSort (fun x y : String × PVal => strLe x.1 y.1 = true) d
  "\x7b" ++ String.intercalate ", " (entries.map (fun kv => jsonQuote kv.1 ++ ": " ++ pvalDumps kv.2)) ++ "\x7d"

/-- One raw session record, as handled by `extract_statsports_data.py`.
The dedup loop at lines 305-316 only inspects `s.get("sessionDetails", {})`;
the record's remaining fields (`sessionPlayers`, …) are abstracted into an
uninterpreted `rest` payload so that two records can differ while sharing a
signature. `sessionDetails = none` models a record without that key, for
which `s.get` substitutes `{}`. -/
structure Session where
  sessionDetails : Option SDict
  rest : String
deriving DecidableEq

/-- Signature `json.dumps(s.get("sessionDetails", {}), sort_keys=True)` — the per-day
deduplication signature. -/
def sessionSig (s : Session) : String :=
  sdictDumps (s.sessionDetails.getD [])

/-- The first-occurrence-per-key deduplication loop shared by the per-day
pass (`extract_all_data_directly`, lines 305-316, key = `sessionSig`) and the
pandas `drop_duplicates(..., keep='first')` calls: walk the list, keep an
element iff its key has not been seen, remembering seen keys. -/
def dedupByKey {α β : Type} (key : α → β) [DecidableEq β] :
    List α → List β → List α
  | [], _ => []
  | x :: xs, seen =>
    if key x ∈ seen then dedupByKey key xs seen
    else x :: dedupByKey key xs (key x :: seen)

/-- The per-day dedup of `extract_all_data_directly` (lines 305-316): `seen`
starts empty, records keyed by their `sessionDetails` signature. -/
def dedupDay (l : List Session) : List Session :=
  dedupByKey sessionSig l []

section DedupLemmas

variable {α β : Type} (key : α → β) [DecidableEq β]

theorem dedupByKey_sublist : ∀ (l : List α) (seen : List β),
    (dedupByKey key l seen).Sublist l
  | [], _ => List.Sublist.refl []
  | x :: xs, seen => by
    unfold dedupByKey
    by_cases h : key x ∈ seen
    · rw [if_pos h]
      exact (dedupByKey_sublist xs seen).cons x
    · rw [if_neg h]
      exact (dedupByKey_sublist xs (key x :: seen)).cons₂ x

theorem dedupByKey_filter_key : ∀ (l : List α) (seen : List β) (k : β),
    (dedupByKey key l seen).filter (fun x => decide (key x = k)) =
      if k ∈ seen then [] else (l.filter (fun x => decide (key x = k))).take 1
  | [], seen, k => by
    by_cases h : k ∈ seen <;> simp [dedupByKey, h]
  | x :: xs, seen, k => by
    unfold dedupByKey
    by_cases hx : key x ∈ seen
    · rw [if_pos hx, dedupByKey_filter_key xs seen k]
      by_cases hk : k ∈ seen
      · rw [if_pos hk, if_pos hk]
      · have hxk : ¬ key x = k := fun h => hk (h ▸ hx)
        rw [if_neg hk, if_neg hk,
          List.filter_cons_of_neg (by simpa using hxk)]
    · rw [if_neg hx]
      by_cases hxk : key x = k
      · have hk : k ∉ seen := fun h => hx (hxk ▸ h)
        rw [if_neg hk,
          List.filter_cons_of_pos (by simpa using hxk),
          List.filter_cons_of_pos (by simpa using hxk),
          dedupByKey_filter_key xs (key x :: seen) k,
          if_pos (hxk ▸ List.mem_cons_self (key x) seen)]
        simp
      · rw [List.filter_cons_of_neg (by simpa using hxk),
          List.filter_cons_of_neg (by simpa using hxk),
          dedupByKey_filter_key xs (key x :: seen) k]
        by_cases hk : k ∈ seen
        · rw [if_pos (List.mem_cons_of_mem _ hk), if_pos hk]
        · rw [if_neg (fun h =>
            (List.mem_cons.mp h).elim (fun he => hxk he.symm) hk), if_neg hk]

theorem dedupByKey_nodup_keys : ∀ (l : List α) (seen : List β),
    ((dedupByKey key l seen).map key).Nodup ∧
      ∀ x ∈ dedupByKey key l seen, key x ∉ seen
  | [], _ => by simp [dedupByKey]
  | x :: xs, seen => by
    unfold dedupByKey
    by_cases h : key x ∈ seen
    · rw [if_pos h]
      exact dedupByKey_nodup_keys xs seen
    · rw [if_neg h]
      obtain ⟨ih1, ih2⟩ := dedupByKey_nodup_keys xs (key x :: seen)
      refine ⟨?_, ?_⟩
      · simp only [List.map_cons, List.nodup_cons]
        refine ⟨?_, ih1⟩
        intro hmem
        obtain ⟨y, hy, hky⟩ := List.mem_map.mp hmem
        exact ih2 y hy (hky ▸ List.mem_cons_self _ _)
      · intro y hy
        rcases List.mem_cons.mp hy with rfl | hy'
        · exact h
        · intro hmem
          exact ih2 y hy' (List.mem_cons_of_mem _ hmem)

theorem dedupByKey_of_nodup_keys : ∀ (l : List α) (seen : List β),
    (l.map key).Nodup → (∀ x ∈ l, key x ∉ seen) →
    dedupByKey key l seen = l
  | [], _, _, _ => rfl
  | x :: xs, seen, hnd, hsee => by
    unfold dedupByKey
    rw [if_neg (hsee x (List.mem_cons_self _ _))]
    congr 1
    apply dedupByKey_of_nodup_keys xs (key x :: seen)
      (by simpa using hnd.of_cons)
    intro y hy
    simp only [List.mem_cons]
    rintro (hk | hk)
    · simp only [List.map_cons, List.nodup_cons] at hnd
      exact hnd.1 (hk ▸ List.mem_map_of_mem key hy)
    · exact hsee y (List.mem_cons_of_mem _ hy) hk

end DedupLemmas

/-- C5: the per-day deduplication (keyed on the sorted-key serialization of
each record's `sessionDetails`) keeps exactly the first occurrence per
signature in original order and drops later duplicates; it is idempotent;
and for a list in which exactly two records share a signature, exactly one
survives — the earlier one. -/
theorem dedupDay_first_wins_idempotent (l : List Session) :
    (dedupDay l).Sublist l ∧
    (∀ k : String, (dedupDay l).filter (fun s => decide (sessionSig s = k)) =
      (l.filter (fun s => decide (sessionSig s = k))).take 1) ∧
    dedupDay (dedupDay l) = dedupDay l ∧
    (∀ s t : Session,
      l.filter (fun u => decide (sessionSig u = sessionSig s)) = [s, t] →
      (dedupDay l).filter (fun u => decide (sessionSig u = sessionSig s)) = [s]) := by
  refine ⟨dedupByKey_sublist sessionSig l [], ?_, ?_, ?_⟩
  · intro k
    simpa using dedupByKey_filter_key sessionSig l [] k
  · exact dedupByKey_of_nodup_keys sessionSig (dedupDay l) []
      (dedupByKey_nodup_keys sessionSig l []).1 (by simp)
  · intro s t hft
    have h := dedupByKey_filter_key sessionSig l [] (sessionSig s)
    simpa [dedupDay, hft] using h

def c5SessionA : Session :=
  ⟨some [("sessionDate", .vstr "2024-03-01"), ("squadId", .vnum 7)], "playersA"⟩

def c5SessionB : Session :=
  ⟨some [("sessionDate", .vstr "2024-03-02")], "playersB"⟩

def c5SessionA' : Session :=
  ⟨some [("sessionDate", .vstr "2024-03-01"), ("squadId", .vnum 7)], "playersC"⟩

/-- Witness for C5 at a concrete three-record day in which the first and
third record share a signature: only the first survives. -/
theorem dedupDay_first_wins_idempotent_witness :
    (dedupDay [c5SessionA, c5SessionB, c5SessionA']).filter
      (fun u => decide (sessionSig u = sessionSig c5SessionA)) = [c5SessionA] :=
  (dedupDay_first_wins_idempotent [c5SessionA, c5SessionB, c5SessionA']).2.2.2
    c5SessionA c5SessionA' (by decide)

/-! Section: Range planner: `get_date_ranges` (lines 133-148) -/

/-- The `period_type` argument of `get_date_ranges` ("day" | "hour"). -/
inductive PeriodType where
  | day : PeriodType
  | hour : PeriodType
deriving DecidableEq

/-- Seconds in `timedelta(days=1)` / `timedelta(hours=1)`. -/
def delta : PeriodType → Nat
  | .day => 86400
  | .hour => 3600

/-- The `while current <= end_date` loop of `get_date_ranges`. The loop
advances `current` by at least one second per iteration, so
`end_date + 1 - start_date` units of fuel always suffice; fuel never cuts
the loop short (see `getDateRangesGo_of_gt`). -/
def getDateRangesGo (end_date d : Nat) : Nat → Nat → List (Nat × Nat)
  | 0, _ => []
  | fuel + 1, current =>
    if current ≤ end_date then
      (current, min (current + d - 1) end_date) ::
        getDateRangesGo end_date d fuel (min (current + d - 1) end_date + 1)
    else []

/-- Planner `get_date_ranges(start_date, end_date, period_type)`: split the
inclusive instant range into consecutive day- or hour-sized periods,
clipping the final period at `end_date`. -/
def get_date_ranges (start_date end_date : Nat) (pt : PeriodType) : List (Nat × Nat) :=
  getDateRangesGo end_date (delta pt) (end_date + 1 - start_date) start_date

theorem getDateRangesGo_of_gt (e d : Nat) :
    ∀ fuel current, e < current → getDateRangesGo e d fuel current = []
  | 0, _, _ => rfl
  | fuel + 1, current, h => by
    unfold getDateRangesGo
    rw [if_neg (Nat.not_le_of_lt h)]

theorem getDateRangesGo_spec (e d : Nat) (hd : 1 ≤ d) :
    ∀ fuel current, current ≤ e → e + 1 - current ≤ fuel →
      (getDateRangesGo e d fuel current).head? = some (current, min (current + d - 1) e) ∧
      ((getDateRangesGo e d fuel current).getLast?.map Prod.snd) = some e ∧
      List.Chain' (fun p q => q.1 = p.2 + 1) (getDateRangesGo e d fuel current) ∧
      (∀ p ∈ getDateRangesGo e d fuel current,
        p.1 ≤ p.2 ∧ p.2 = min (p.1 + d - 1) e) ∧
      (getDateRangesGo e d fuel current).length = (e - current) / d + 1
  | 0, current, hc, hf => absurd hf (by omega)
  | fuel + 1, current, hc, hf => by
    unfold getDateRangesGo
    rw [if_pos hc]
    by_cases hclip : e ≤ current + d - 1
    · have hmin : min (current + d - 1) e = e := Nat.min_eq_right hclip
      rw [hmin]
      have hempty : getDateRangesGo e d fuel (e + 1) = [] :=
        getDateRangesGo_of_gt e d fuel (e + 1) (Nat.lt_succ_self e)
      rw [hempty]
      refine ⟨rfl, rfl, List.chain'_singleton _, ?_, ?_⟩
      · intro p hp
        rcases List.mem_singleton.mp hp with rfl
        exact ⟨hc, by rw [hmin]⟩
      · have : (e - current) / d = 0 := Nat.div_eq_of_lt (by omega)
        simp [this]
    · have hlt : current + d - 1 < e := Nat.lt_of_not_le hclip
      have hmin : min (current + d - 1) e = current + d - 1 := Nat.min_eq_left (Nat.le_of_lt hlt)
      rw [hmin]
      have hc' : current + d ≤ e := by omega
      have hnext : current + d - 1 + 1 = current + d := by omega
      rw [hnext]
      obtain ⟨ih1, ih2, ih3, ih4, ih5⟩ :=
        getDateRangesGo_spec e d hd fuel (current + d) hc' (by omega)
      refine ⟨rfl, ?_, ?_, ?_, ?_⟩
      · cases hgo : getDateRangesGo e d fuel (current + d) with
        | nil => rw [hgo] at ih1; exact absurd ih1 (by simp)
        | cons q l =>
          rw [hgo] at ih2
          rw [List.getLast?_cons_cons]
          exact ih2
      · rw [List.chain'_cons']
        refine ⟨?_, ih3⟩
        intro q hq
        rw [ih1] at hq
        cases hq
        simp [hnext]
      · intro p hp
        rcases List.mem_cons.mp hp with rfl | hp'
        · exact ⟨by omega, by rw [hmin]⟩
        · exact ih4 p hp'
      · rw [List.length_cons, ih5]
        have hsub : e - (current + d) = e - current - d := by omega
        rw [hsub, ← Nat.div_eq_sub_div (by omega) (by omega)]

theorem getDateRangesGo_aligned (e d : Nat) (hd : 1 ≤ d) :
    ∀ fuel current, current % d = 0 →
      ∀ p ∈ getDateRangesGo e d fuel current, p.1 % d = 0
  | 0, _, _ => by simp [getDateRangesGo]
  | fuel + 1, current, ha => by
    unfold getDateRangesGo
    by_cases hc : current ≤ e
    · rw [if_pos hc]
      intro p hp
      rcases List.mem_cons.mp hp with rfl | hp'
      · exact ha
      · by_cases hclip : e ≤ current + d - 1
        · rw [Nat.min_eq_right hclip] at hp'
          rw [getDateRangesGo_of_gt e d fuel (e + 1) (Nat.lt_succ_self e)] at hp'
          cases hp'
        · have hmin : min (current + d - 1) e = current + d - 1 :=
            Nat.min_eq_left (by omega)
          rw [hmin] at hp'
          have hnext : current + d - 1 + 1 = current + d := by omega
          rw [hnext] at hp'
          exact getDateRangesGo_aligned e d hd fuel (current + d)
            (by rw [Nat.add_mod_right]; exact ha) p hp'
    · rw [if_neg hc]
      simp

/-- Modelled from the spec's words: the number of calendar dates spanned by
the inclusive instant range `[s, e]`, dates being numbered `t / 86400`. -/
def calendarDatesSpanned (s e : Nat) : Nat :=
  e / 86400 - s / 86400 + 1

/-- C4 counterexample: for the DateRange starting at 12:00:00 of day 0
(`s = 43200`) and ending at 07:33:20 of day 2 (`e = 200000`), day
granularity produces 2 periods although 3 calendar dates are spanned, and
the first period's end (11:59:59 of day 1) is neither a 23:59:59 boundary
nor the range end — refuting the claim's per-calendar-date shape and count
for general (non-midnight) DateRanges. -/
theorem get_date_ranges_calendar_claim_cex :
    get_date_ranges 43200 200000 PeriodType.day = [(43200, 129599), (129600, 200000)] ∧
    (get_date_ranges 43200 200000 PeriodType.day).length = 2 ∧
    calendarDatesSpanned 43200 200000 = 3 ∧
    ¬(129599 % 86400 = 86399 ∨ 129599 = 200000) := by
  refine ⟨by decide, by decide, by decide, by decide⟩

/-- C4 (amended): for every range with `s ≤ e` and either granularity the
produced periods are gapless and non-overlapping — the first starts at `s`,
the last ends at `e`, each next period starts one second after the previous
ends, every period is well-formed and ends at `min (start + delta - 1) e`,
and there are `(e - s) / delta + 1` of them.  When `s` falls on a midnight
boundary (as in every in-repo invocation, where dates are parsed at
day granularity) the day-granularity count equals the number of calendar
dates spanned and every period starts at a midnight and ends either at its
own 23:59:59 boundary or clipped at `e`. -/
theorem get_date_ranges_gapless (s e : Nat) (pt : PeriodType) (hse : s ≤ e) :
    (get_date_ranges s e pt).head? = some (s, min (s + delta pt - 1) e) ∧
    ((get_date_ranges s e pt).getLast?.map Prod.snd) = some e ∧
    List.Chain' (fun p q => q.1 = p.2 + 1) (get_date_ranges s e pt) ∧
    (∀ p ∈ get_date_ranges s e pt, p.1 ≤ p.2 ∧ p.2 = min (p.1 + delta pt - 1) e) ∧
    (get_date_ranges s e pt).length = (e - s) / delta pt + 1 ∧
    (s % 86400 = 0 →
      (get_date_ranges s e PeriodType.day).length = calendarDatesSpanned s e ∧
      ∀ p ∈ get_date_ranges s e PeriodType.day, p.1 % 86400 = 0 ∧ p.2 = min (p.1 + 86399) e) := by
  have hd : 1 ≤ delta pt := by cases pt <;> decide
  obtain ⟨h1, h2, h3, h4, h5⟩ :=
    getDateRangesGo_spec e (delta pt) hd (e + 1 - s) s hse (by omega)
  refine ⟨h1, h2, h3, h4, h5, ?_⟩
  intro hmid
  have hdday : (1 : Nat) ≤ delta PeriodType.day := by decide
  obtain ⟨_, _, _, g4, g5⟩ :=
    getDateRangesGo_spec e (delta PeriodType.day) hdday (e + 1 - s) s hse (by omega)
  refine ⟨?_, ?_⟩
  · show (get_date_ranges s e PeriodType.day).length = _
    rw [show get_date_ranges s e PeriodType.day =
      getDateRangesGo e (delta PeriodType.day) (e + 1 - s) s from rfl, g5]
    unfold calendarDatesSpanned
    have hq : 86400 * (s / 86400) = s :=
      Nat.mul_div_cancel' (Nat.dvd_of_mod_eq_zero hmid)
    have key : (e - s) / 86400 = e / 86400 - s / 86400 := by
      conv_lhs => rw [← hq]
      exact Nat.sub_mul_div e 86400 (s / 86400) (by omega)
    show (e - s) / 86400 + 1 = _
    rw [key]
  · intro p hp
    have hal := getDateRangesGo_aligned e (delta PeriodType.day) hdday
      (e + 1 - s) s hmid p hp
    refine ⟨hal, ?_⟩
    have := (g4 p hp).2
    simpa using this

/-- Witness for C4 (amended) at the concrete midnight-aligned range
`[0, 172800]` (three calendar days): three day periods are produced. -/
theorem get_date_ranges_gapless_witness :
    (get_date_ranges 0 172800 PeriodType.day).length = calendarDatesSpanned 0 172800 :=
  ((get_date_ranges_gapless 0 172800 PeriodType.day (by decide)).2.2.2.2.2 (by decide)).1

/-! Section: The client, the probe and the day extractor (lines 183-269) -/

/-- The part of `StatsportsClient` state the extraction core interacts
with: only `timeout` is read or written by `has_data_for_day`; the
credential is carried along untouched. -/
structure Client where
  timeout : Int
  api_key : String
deriving DecidableEq

/-- Outcome of the probe's underlying full-day request as observed inside
`has_data_for_day`'s `try` block: `get_full_sessions` itself swallows
request exceptions and returns `None` (`reply none`); `exn` models an
exception escaping into `has_data_for_day`'s own `except` clause. -/
inductive ProbeOutcome where
  | reply : Option (List Session) → ProbeOutcome
  | exn : ProbeOutcome
deriving DecidableEq

/-- Probe `has_data_for_day(client, date_str)` (lines 183-216): store the original
timeout, temporarily set the short discovery timeout, probe the day, and
restore the original timeout in the `finally` block on every path. Returns
the `has_data` boolean and the client as left after the call. -/
def has_data_for_day (discoveryTimeout : Int) (c : Client) (probe : ProbeOutcome) :
    Bool × Client :=
  let original_timeout := c.timeout
  let c1 : Client := { c with timeout := discoveryTimeout }
  match probe with
  | .reply r =>
    let has_data := match r with
      | some l => decide (0 < l.length)
      | none => false
    (has_data, { c1 with timeout := original_timeout })
  | .exn => (false, { c1 with timeout := original_timeout })

/-- C10: whatever the probe outcome — data found, no data, failed request,
or an exception raised inside the `try` block — `has_data_for_day` leaves
`client.timeout` exactly as it was before the call (the `finally` block
always restores it), so probing never alters the standard timeout used by
subsequent full-day and hourly requests. -/
theorem has_data_for_day_restores_timeout
    (discoveryTimeout : Int) (c : Client) (probe : ProbeOutcome) :
    ((has_data_for_day discoveryTimeout c probe).2).timeout = c.timeout := by
  cases probe with
  | reply r => rfl
  | exn => rfl

/-- Scripted collaborator for one day's extraction: the response to the
initial full-day request, the probe outcome, and a response for each hourly
sub-request (keyed by the requested period; `none` = failed request or an
exception caught by the hour loop's `except`). -/
structure DayApi where
  fullDay : Option (List Session)
  probe : ProbeOutcome
  hourly : Nat × Nat → Option (List Session)

/-- Extractor `extract_day_with_smart_fallback` (lines 218-269). Returns the day's
sessions, the list of hourly requests issued (in issue order), and the
client state after the call. -/
def extract_day_with_smart_fallback (c : Client) (discoveryTimeout : Int)
    (api : DayApi) (day_start day_end : Nat) :
    List Session × List (Nat × Nat) × Client :=
  match api.fullDay with
  | some day_sessions =>
    if 0 < day_sessions.length then (day_sessions, [], c)
    else ([], [], c)
  | none =>
    let probed := has_data_for_day discoveryTimeout c api.probe
    if probed.1 = false then ([], [], probed.2)
    else
      let hourly_ranges := get_date_ranges day_start day_end PeriodType.hour
      let all_day_sessions := hourly_ranges.foldl (fun acc r =>
        match api.hourly r with
        | some hour_sessions =>
          if 0 < hour_sessions.length then acc ++ hour_sessions else acc
        | none => acc) []
      (all_day_sessions, hourly_ranges, probed.2)

theorem hourly_foldl_eq (h : Nat × Nat → Option (List Session)) :
    ∀ (rs : List (Nat × Nat)) (acc : List Session),
      rs.foldl (fun acc r =>
        match h r with
        | some hour_sessions =>
          if 0 < hour_sessions.length then acc ++ hour_sessions else acc
        | none => acc) acc = acc ++ (rs.map (fun r => (h r).getD [])).flatten
  | [], acc => by simp
  | r :: rs, acc => by
    simp only [List.foldl_cons, List.map_cons, List.flatten_cons]
    cases hr : h r with
    | none => rw [hourly_foldl_eq h rs acc]; simp
    | some l =>
      by_cases hl : 0 < l.length
      · simp only [if_pos hl]
        rw [hourly_foldl_eq h rs (acc ++ l)]
        simp
      · have : l = [] := by
          cases l with
          | nil => rfl
          | cons a as => exact absurd (by simp) hl
        subst this
        simp only [if_neg hl]
        rw [hourly_foldl_eq h rs acc]
        simp

/-- C2: with a scripted collaborator, (a) if the full-day request fails and
the probe returns empty, fails, or raises, the day extractor returns the
empty list and issues zero hourly requests; (b) if the full-day request
fails and the probe finds data, it issues exactly the day's hourly periods
as requests — 24 of them for a full 00:00:00-23:59:59 day — and returns the
concatenation, in chronological hour order, of the non-empty hourly
responses, skipping failed hours; in particular if all hourly responses are
empty the result is the empty list. -/
theorem extract_day_with_smart_fallback_spec
    (c : Client) (dt : Int) (api : DayApi) (ds de : Nat) :
    (api.fullDay = none →
      (api.probe = .exn ∨ api.probe = .reply none ∨ api.probe = .reply (some [])) →
      (extract_day_with_smart_fallback c dt api ds de).1 = [] ∧
      (extract_day_with_smart_fallback c dt api ds de).2.1 = []) ∧
    (api.fullDay = none → ∀ l, api.probe = .reply (some l) → l ≠ [] →
      (extract_day_with_smart_fallback c dt api ds de).2.1 =
        get_date_ranges ds de PeriodType.hour ∧
      (extract_day_with_smart_fallback c dt api ds de).1 =
        ((get_date_ranges ds de PeriodType.hour).map
          (fun r => (api.hourly r).getD [])).flatten ∧
      (de = ds + 86399 →
        (extract_day_with_smart_fallback c dt api ds de).2.1.length = 24) ∧
      ((∀ r ∈ get_date_ranges ds de PeriodType.hour, api.hourly r = some []) →
        (extract_day_with_smart_fallback c dt api ds de).1 = [])) := by
  constructor
  · intro hfd hpr
    unfold extract_day_with_smart_fallback
    rw [hfd]
    rcases hpr with h | h | h <;> rw [h] <;> simp [has_data_for_day]
  · intro hfd l hpr hl
    have hprobe : (has_data_for_day dt c api.probe).1 = true := by
      rw [hpr]
      unfold has_data_for_day
      simp only []
      cases l with
      | nil => exact absurd rfl hl
      | cons a as => simp
    have hres : extract_day_with_smart_fallback c dt api ds de =
        (((get_date_ranges ds de PeriodType.hour).map
            (fun r => (api.hourly r).getD [])).flatten,
          get_date_ranges ds de PeriodType.hour,
          (has_data_for_day dt c api.probe).2) := by
      unfold extract_day_with_smart_fallback
      rw [hfd]
      simp only [hprobe]
      rw [hourly_foldl_eq api.hourly (get_date_ranges ds de PeriodType.hour) []]
      simp
    refine ⟨by rw [hres], by rw [hres], ?_, ?_⟩
    · intro hde
      rw [hres]
      have h24 := (getDateRangesGo_spec de 3600 (by decide)
        (de + 1 - ds) ds (by omega) (by omega)).2.2.2.2
      show (get_date_ranges ds de PeriodType.hour).length = 24
      rw [show get_date_ranges ds de PeriodType.hour =
        getDateRangesGo de 3600 (de + 1 - ds) ds from rfl, h24]
      have : de - ds = 86399 := by omega
      rw [this]
    · intro hall
      rw [hres]
      simp only [List.flatten_eq_nil_iff]
      intro x hx
      obtain ⟨r, hr, hrx⟩ := List.mem_map.mp hx
      rw [hall r hr] at hrx
      simpa using hrx.symm

def c2Session : Session := ⟨some [("sessionDate", .vstr "2024-03-02")], "p"⟩

def c2Api : DayApi :=
  ⟨none, .reply (some [c2Session]), fun _ => some []⟩

/-- Witness for C2 at a scripted full 24-hour day whose full-day request
fails, whose probe finds one session, and whose 24 hourly requests all
return empty: exactly 24 hourly requests are issued and the result is
empty. -/
theorem extract_day_with_smart_fallback_spec_witness :
    (extract_day_with_smart_fallback ⟨60, "k"⟩ 10 c2Api 0 86399).2.1.length = 24 ∧
    (extract_day_with_smart_fallback ⟨60, "k"⟩ 10 c2Api 0 86399).1 = [] := by
  obtain ⟨-, h⟩ := extract_day_with_smart_fallback_spec ⟨60, "k"⟩ 10 c2Api 0 86399
  obtain ⟨-, -, h24, hemp⟩ := h rfl [c2Session] rfl (by decide)
  exact ⟨h24 rfl, hemp (fun r _ => rfl)⟩

/-! Section: Incremental persistence: `load_incremental_progress` (lines 43-101) -/

/-- One decoded line of `progress_sessions.jsonl`: its `date` key (`none`
when absent, mirroring `rec.get('date')`) and its `sessions` payload
(default `[]`). -/
structure SessEntry where
  date : Option String
  sessions : List Session
deriving DecidableEq

/-- One decoded line of `progress_players.jsonl`. Player-detail records are
never inspected by the resumption logic, so their payload is left uninterpreted. -/
structure PlayEntry where
  date : Option String
  players : List String
deriving DecidableEq

/-- The checkpoint document written by `update_checkpoint` (lines 118-131). -/
structure CheckpointDoc where
  range_start : String
  range_end : String
  processed_dates : List String
  total_sessions : Nat
  last_updated : String
deriving DecidableEq

/-- A run directory as `load_incremental_progress` observes it.
`checkpoint = none` covers a missing, unreadable or empty (falsy `{}`)
checkpoint, exactly the cases `_safe_read_json`/`if checkpoint:` treat as
"no checkpoint"; a `none` log means the file does not exist; a `none` log
line is one `json.loads` rejected (skipped by the reader). -/
structure RunDir where
  checkpoint : Option CheckpointDoc
  sessionsLog : Option (List (Option SessEntry))
  playersLog : Option (List (Option PlayEntry))

/-- Python dict assignment `m[k] = v` on an insertion-ordered dict
modelled as an association list: overwrite in place if present, else
append. -/
def insertAssoc {β : Type} (m : List (String × β)) (k : String) (v : β) :
    List (String × β) :=
  if k ∈ m.map Prod.fst then m.map (fun kv => if kv.1 = k then (k, v) else kv)
  else m ++ [(k, v)]

/-- The `progress_sessions.jsonl` reading loop of `load_incremental_progress`
(lines 63-80): guarded by `if processed_dates and os.path.exists(...)`,
extend `all_sessions` with each decodable line whose date key is in the
processed-date set. -/
def loadSessionsLog (processed : List String) :
    Option (List (Option SessEntry)) → List Session
  | none => []
  | some lines =>
    if processed = [] then []
    else lines.foldl (fun acc ln =>
      match ln with
      | some e =>
        match e.date with
        | some d => if d ∈ processed then acc ++ e.sessions else acc
        | none => acc
      | none => acc) []

/-- The `progress_players.jsonl` reading loop of `load_incremental_progress`
(lines 82-99): for each decodable line whose date key is processed, set
`all_player_details[date_key] = players`. -/
def loadPlayersLog (processed : List String) :
    Option (List (Option PlayEntry)) → List (String × List String)
  | none => []
  | some lines =>
    if processed = [] then []
    else lines.foldl (fun acc ln =>
      match ln with
      | some e =>
        match e.date with
        | some d => if d ∈ processed then insertAssoc acc d e.players else acc
        | none => acc
      | none => acc) []

/-- The checkpoint-validation part of `load_incremental_progress`
(lines 54-61): no/falsy checkpoint leaves everything empty; a checkpoint
for a different range discards all prior progress (`return set(), [], {}`);
a matching checkpoint re-hydrates from the logs. -/
def loadAux (rangeStart rangeEnd : String) :
    Option CheckpointDoc → Option (List (Option SessEntry)) →
      Option (List (Option PlayEntry)) →
      List String × List Session × List (String × List String)
  | none, _, _ => ([], [], [])
  | some cp, slog, plog =>
    if cp.range_start = rangeStart ∧ cp.range_end = rangeEnd then
      (cp.processed_dates, loadSessionsLog cp.processed_dates slog,
        loadPlayersLog cp.processed_dates plog)
    else ([], [], [])

/-- Loader `load_incremental_progress(range_start, range_end, run_dir)` (lines
43-101). Dates are represented by their formatted strings; the returned
processed list stands for `set(checkpoint["processed_dates"])`. -/
def load_incremental_progress (rangeStart rangeEnd : String) (dir : RunDir) :
    List String × List Session × List (String × List String) :=
  loadAux rangeStart rangeEnd dir.checkpoint dir.sessionsLog dir.playersLog

/-- C3: a checkpoint recorded for a different range than the new
invocation's yields entirely empty state — processed dates, sessions and
player details all empty, prior progress discarded even when log files are
present — and so does a missing checkpoint; no error is raised (the
function is total). -/
theorem load_incremental_progress_range_mismatch (rs re : String) (dir : RunDir) :
    (∀ cp, dir.checkpoint = some cp →
      (cp.range_start ≠ rs ∨ cp.range_end ≠ re) →
      load_incremental_progress rs re dir = ([], [], [])) ∧
    (dir.checkpoint = none →
      load_incremental_progress rs re dir = ([], [], [])) := by
  constructor
  · intro cp hcp hne
    unfold load_incremental_progress
    rw [hcp]
    simp only [loadAux]
    rw [if_neg (fun hc => hne.elim (fun h => h hc.1) (fun h => h hc.2))]
  · intro hcp
    unfold load_incremental_progress
    rw [hcp]
    simp only [loadAux]

def c3Session : Session := ⟨some [("sessionDate", .vstr "2024-01-01")], "p"⟩

/-- A run directory checkpointed for [2024-01-01, 2024-01-05] with progress
log files present. -/
def c3Dir : RunDir :=
  ⟨some ⟨"2024-01-01", "2024-01-05", ["2024-01-01"], 3, "t0"⟩,
   some [some ⟨some "2024-01-01", [c3Session]⟩],
   some [some ⟨some "2024-01-01", ["player-blob"]⟩]⟩

/-- Witness for C3: resuming `c3Dir` with range [2024-02-01, 2024-02-05]
returns empty state although log entries are present. -/
theorem load_incremental_progress_range_mismatch_witness :
    load_incremental_progress "2024-02-01" "2024-02-05" c3Dir = ([], [], []) :=
  (load_incremental_progress_range_mismatch "2024-02-01" "2024-02-05" c3Dir).1
    ⟨"2024-01-01", "2024-01-05", ["2024-01-01"], 3, "t0"⟩ rfl (Or.inl (by decide))

/-- C1: for a run directory whose checkpoint matches the invoked range and
records processed_dates = [D1, D2], and whose progress logs contain one
entry each for D1, D2 and D3 (in append order), `load_incremental_progress`
returns processed_dates = [D1, D2], exactly the D1 and D2 sessions in log
order, and exactly the D1 and D2 player details — the D3 entries are
ignored although present in the logs. -/
theorem load_incremental_progress_resume
    (rs re d1 d2 d3 : String) (cp : CheckpointDoc) (dir : RunDir)
    (s1 s2 s3 : List Session) (p1 p2 p3 : List String)
    (hcp : dir.checkpoint = some cp)
    (hrs : cp.range_start = rs) (hre : cp.range_end = re)
    (hpd : cp.processed_dates = [d1, d2])
    (h12 : d1 ≠ d2) (h31 : d3 ≠ d1) (h32 : d3 ≠ d2)
    (hsl : dir.sessionsLog =
      some [some ⟨some d1, s1⟩, some ⟨some d2, s2⟩, some ⟨some d3, s3⟩])
    (hpl : dir.playersLog =
      some [some ⟨some d1, p1⟩, some ⟨some d2, p2⟩, some ⟨some d3, p3⟩]) :
    load_incremental_progress rs re dir =
      ([d1, d2], s1 ++ s2, [(d1, p1), (d2, p2)]) := by
  unfold load_incremental_progress
  rw [hcp, hsl, hpl]
  simp only [loadAux]
  rw [if_pos ⟨hrs, hre⟩, hpd]
  simp only [loadSessionsLog, loadPlayersLog]
  rw [if_neg (by simp), if_neg (by simp)]
  simp only [List.foldl_cons, List.foldl_nil]
  have hd1 : d1 ∈ [d1, d2] := List.mem_cons_self _ _
  have hd2 : d2 ∈ [d1, d2] := List.mem_cons_of_mem _ (List.mem_cons_self _ _)
  have hd3 : d3 ∉ [d1, d2] := by simp [h31, h32]
  rw [if_pos hd1, if_pos hd2, if_neg hd3, if_pos hd1, if_pos hd2, if_neg hd3]
  simp only [List.nil_append]
  have ha1 : insertAssoc ([] : List (String × List String)) d1 p1 = [(d1, p1)] := rfl
  have ha2 : insertAssoc [(d1, p1)] d2 p2 = [(d1, p1), (d2, p2)] := by
    unfold insertAssoc
    have hne : d2 ∉ ([(d1, p1)].map Prod.fst) := by
      simp only [List.map_cons, List.map_nil, List.mem_singleton]
      exact fun h => h12 h.symm
    rw [if_neg hne]
    rfl
  rw [ha1, ha2]

/-- Witness for C1 at concrete dates 2024-03-01/02/03 with distinct session
and player payloads per day. -/
theorem load_incremental_progress_resume_witness :
    load_incremental_progress "2024-03-01" "2024-03-03"
      ⟨some ⟨"2024-03-01", "2024-03-03", ["2024-03-01", "2024-03-02"], 2, "t1"⟩,
       some [some ⟨some "2024-03-01", [c3Session]⟩,
             some ⟨some "2024-03-02", [c2Session]⟩,
             some ⟨some "2024-03-03", [c5SessionB]⟩],
       some [some ⟨some "2024-03-01", ["pl1"]⟩,
             some ⟨some "2024-03-02", ["pl2"]⟩,
             some ⟨some "2024-03-03", ["pl3"]⟩]⟩ =
      (["2024-03-01", "2024-03-02"], [c3Session] ++ [c2Session],
       [("2024-03-01", ["pl1"]), ("2024-03-02", ["pl2"])]) :=
  load_incremental_progress_resume "2024-03-01" "2024-03-03"
    "2024-03-01" "2024-03-02" "2024-03-03" _ _
    [c3Session] [c2Session] [c5SessionB] ["pl1"] ["pl2"] ["pl3"]
    rfl rfl rfl rfl (by decide) (by decide) (by decide) rfl rfl

/-! Section: The orchestrator loop: `extract_all_data_directly` (lines 271-341) -/

/-- One persistence call made by the orchestrator while processing a day,
with the `Bool` recording whether the underlying file I/O succeeded (the
Python wrappers catch exceptions and only print a warning). -/
inductive Event where
  | appendSessions : String → Bool → Event
  | appendPlayers : String → Bool → Event
  | checkpointWrite : List String → Bool → Event
deriving DecidableEq

/-- In-memory accumulators plus the on-disk artifacts of one run, threaded
through the orchestrator loop. -/
structure RunState where
  processed : List String
  all_sessions : List Session
  all_player_details : List (String × List String)
  sessionsLog : List SessEntry
  playersLog : List PlayEntry
  checkpointFile : Option CheckpointDoc
deriving DecidableEq

/-- Collaborator script for the orchestrator loop, keyed by the day being
processed: the day extractor's result, the player-details reply, whether
each of the three file writes succeeds, and the `utcnow` timestamp. -/
structure LoopOracle where
  daySessions : String → List Session
  playerDetails : String → List String
  sessAppendOk : String → Bool
  playAppendOk : String → Bool
  checkpointOk : String → Bool
  now : String → String

/-- Appender `append_day_progress(date_key, sessions, players, run_dir)` (lines
103-116): append one line to each jsonl log; each write fails independently
and silently (warning only). Returns the new log contents and the events. -/
def append_day_progress (dateKey : String) (sessions : List Session)
    (players : List String) (sessOk playOk : Bool)
    (slog : List SessEntry) (plog : List PlayEntry) :
    (List SessEntry × List PlayEntry) × List Event :=
  ((if sessOk then slog ++ [⟨some dateKey, sessions⟩] else slog,
    if playOk then plog ++ [⟨some dateKey, players⟩] else plog),
   [.appendSessions dateKey sessOk, .appendPlayers dateKey playOk])

/-- Writer `update_checkpoint(...)` (lines 118-131) at the state level: overwrite
`checkpoint.json` with the new document (kept unchanged if the write
fails; the exception is caught). -/
def update_checkpoint_state (rangeStart rangeEnd : String)
    (processedSorted : List String) (total : Nat) (now : String) (ok : Bool)
    (chk : Option CheckpointDoc) : Option CheckpointDoc × List Event :=
  (if ok then some ⟨rangeStart, rangeEnd, processedSorted, total, now⟩ else chk,
   [.checkpointWrite processedSorted ok])

/-- The body of the `for ... in daily_ranges` loop of
`extract_all_data_directly` (lines 285-333) for the day `dateStr`:
skip if already processed; otherwise extract (the day extractor's result is
scripted), dedup, fetch player details when sessions exist, merge into the
accumulators, append the day's progress lines, add the date to
processed_dates and write the checkpoint. -/
def extract_day_step (rangeStart rangeEnd : String) (o : LoopOracle)
    (st : RunState) (dateStr : String) : RunState × List Event :=
  if dateStr ∈ st.processed then (st, [])
  else
    let dateKeyFull := dateStr ++ "T00:00:00Z"
    let day0 := o.daySessions dateStr
    let day_sessions := if day0 = [] then day0 else dedupDay day0
    let pd := o.playerDetails dateKeyFull
    let player_details_for_day :=
      if day_sessions ≠ [] ∧ pd ≠ [] then pd else []
    let all_player_details' :=
      if day_sessions ≠ [] ∧ pd ≠ [] then
        insertAssoc st.all_player_details dateKeyFull pd
      else st.all_player_details
    let all_sessions' :=
      if day_sessions = [] then st.all_sessions
      else st.all_sessions ++ day_sessions
    let app := append_day_progress dateKeyFull day_sessions
      player_details_for_day (o.sessAppendOk dateStr) (o.playAppendOk dateStr)
      st.sessionsLog st.playersLog
    let processed' := List.insert dateStr st.processed
    let chk := update_checkpoint_state rangeStart rangeEnd
      (sortedStrings processed') all_sessions'.length (o.now dateStr)
      (o.checkpointOk dateStr) st.checkpointFile
    ({ processed := processed'
       all_sessions := all_sessions'
       all_player_details := all_player_details'
       sessionsLog := app.1.1
       playersLog := app.1.2
       checkpointFile := chk.1 },
     app.2 ++ chk.2)

/-- The whole orchestrator loop over the planned daily date strings,
collecting the emitted persistence events in order. -/
def extract_all_loop (rangeStart rangeEnd : String) (o : LoopOracle) :
    List String → RunState → RunState × List Event
  | [], st => (st, [])
  | d :: ds, st =>
    let step := extract_day_step rangeStart rangeEnd o st d
    let rest := extract_all_loop rangeStart rangeEnd o ds step.1
    (rest.1, step.2 ++ rest.2)

/-- The processed-date sets recorded by the checkpoint writes of a trace. -/
def checkpointsOf (evts : List Event) : List (List String) :=
  evts.filterMap (fun e =>
    match e with
    | .checkpointWrite ps _ => some ps
    | _ => none)

theorem mem_sortedStrings {a : String} {l : List String} :
    a ∈ sortedStrings l ↔ a ∈ l :=
  (List.perm_insertionSort (fun x y => strLe x y = true) l).mem_iff

theorem extract_day_step_skip (rs re : String) (o : LoopOracle)
    (st : RunState) (d : String) (hd : d ∈ st.processed) :
    extract_day_step rs re o st d = (st, []) := by
  unfold extract_day_step
  rw [if_pos hd]

theorem extract_day_step_processed (rs re : String) (o : LoopOracle)
    (st : RunState) (d : String) (hd : d ∉ st.processed) :
    (extract_day_step rs re o st d).1.processed = d :: st.processed ∧
    (extract_day_step rs re o st d).2 =
      [.appendSessions (d ++ "T00:00:00Z") (o.sessAppendOk d),
       .appendPlayers (d ++ "T00:00:00Z") (o.playAppendOk d),
       .checkpointWrite (sortedStrings (d :: st.processed)) (o.checkpointOk d)] := by
  unfold extract_day_step
  rw [if_neg hd]
  simp only [append_day_progress, update_checkpoint_state]
  rw [List.insert_of_not_mem hd]
  exact ⟨rfl, rfl⟩

theorem extract_all_loop_invariants (rs re : String) (o : LoopOracle) :
    ∀ (ds : List String) (st : RunState),
      st.processed ⊆ (extract_all_loop rs re o ds st).1.processed ∧
      (∀ ps ∈ checkpointsOf (extract_all_loop rs re o ds st).2,
        st.processed ⊆ ps) ∧
      List.Chain' (· ⊆ ·) (checkpointsOf (extract_all_loop rs re o ds st).2)
  | [], st => by
    refine ⟨List.Subset.refl _, ?_, ?_⟩ <;> simp [extract_all_loop, checkpointsOf]
  | d :: ds, st => by
    by_cases hd : d ∈ st.processed
    · have hskip := extract_day_step_skip rs re o st d hd
      unfold extract_all_loop
      rw [hskip]
      simpa using extract_all_loop_invariants rs re o ds st
    · obtain ⟨hp, hev⟩ := extract_day_step_processed rs re o st d hd
      obtain ⟨ih1, ih2, ih3⟩ :=
        extract_all_loop_invariants rs re o ds (extract_day_step rs re o st d).1
      have hsub : st.processed ⊆ (extract_day_step rs re o st d).1.processed := by
        rw [hp]
        exact List.subset_cons_self d st.processed
      unfold extract_all_loop
      refine ⟨hsub.trans ih1, ?_, ?_⟩
      · intro ps hps
        simp only [checkpointsOf, hev, List.filterMap_append] at hps
        rcases List.mem_append.mp hps with h | h
        · simp only [List.filterMap_cons, List.filterMap_nil] at h
          rcases List.mem_singleton.mp h with rfl
          intro a ha
          rw [mem_sortedStrings]
          exact List.mem_cons_of_mem d ha
        · exact hsub.trans (ih2 ps h)
      · simp only [checkpointsOf, hev, List.filterMap_append,
          List.filterMap_cons, List.filterMap_nil]
        rw [List.singleton_append, List.chain'_cons']
        refine ⟨?_, ih3⟩
        intro b hb
        have hbmem : b ∈ checkpointsOf (extract_all_loop rs re o ds
            (extract_day_step rs re o st d).1).2 :=
          List.mem_of_mem_head? hb
        intro a ha
        rw [mem_sortedStrings] at ha
        exact (hp ▸ ih2 b hbmem) ha

/-- C9: within a run, processed_dates grows monotonically. Each loop step
either leaves the whole state unchanged (already-processed day, skipped) or
adds exactly the one new date to processed_dates; the loop never removes a
date (the initial processed set is contained in the final one); and the
processed-date sets recorded by successive checkpoint writes form a
subset-ascending chain. -/
theorem processed_dates_monotone (rs re : String) (o : LoopOracle) :
    (∀ (st : RunState) (d : String),
      (d ∈ st.processed → extract_day_step rs re o st d = (st, [])) ∧
      (d ∉ st.processed →
        (extract_day_step rs re o st d).1.processed = d :: st.processed)) ∧
    (∀ (ds : List String) (st : RunState),
      st.processed ⊆ (extract_all_loop rs re o ds st).1.processed) ∧
    (∀ (ds : List String) (st : RunState),
      List.Chain' (· ⊆ ·) (checkpointsOf (extract_all_loop rs re o ds st).2)) :=
  ⟨fun st d =>
    ⟨extract_day_step_skip rs re o st d,
     fun hd => (extract_day_step_processed rs re o st d hd).1⟩,
   fun ds st => (extract_all_loop_invariants rs re o ds st).1,
   fun ds st => (extract_all_loop_invariants rs re o ds st).2.2⟩

/-- An oracle whose appends succeed. -/
def c9Oracle : LoopOracle :=
  ⟨fun _ => [c2Session], fun _ => ["pd"], fun _ => true, fun _ => true,
   fun _ => true, fun _ => "t2"⟩

def emptyRunState : RunState := ⟨[], [], [], [], [], none⟩

/-- Witness for C9: processing the unprocessed day 2024-03-01 from the
empty state adds exactly that date. -/
theorem processed_dates_monotone_witness :
    (extract_day_step "2024-03-01" "2024-03-02" c9Oracle emptyRunState
      "2024-03-01").1.processed = ["2024-03-01"] :=
  ((processed_dates_monotone "2024-03-01" "2024-03-02" c9Oracle).1
    emptyRunState "2024-03-01").2 (by decide)

/-- C8 (amended): in every non-skipped orchestrator iteration the append
calls for date D are issued — and, exceptions being caught inside
`append_day_progress`, complete — strictly before the checkpoint write that
includes D in processed_dates; and whenever the sessions-log append I/O
succeeds, the resulting sessions log contains an entry for D (keyed
`D + "T00:00:00Z"`). When the append I/O fails the failure is only warned
about and the checkpoint still marks D processed (the §7 degraded mode), so
the stated ordering, not append durability, is what the loop guarantees. -/
theorem append_before_checkpoint (rs re : String) (o : LoopOracle)
    (st : RunState) (d : String) (hd : d ∉ st.processed) :
    (extract_day_step rs re o st d).2 =
      [.appendSessions (d ++ "T00:00:00Z") (o.sessAppendOk d),
       .appendPlayers (d ++ "T00:00:00Z") (o.playAppendOk d),
       .checkpointWrite (sortedStrings (d :: st.processed)) (o.checkpointOk d)] ∧
    (o.sessAppendOk d = true →
      ∃ e ∈ (extract_day_step rs re o st d).1.sessionsLog,
        e.date = some (d ++ "T00:00:00Z")) := by
  refine ⟨(extract_day_step_processed rs re o st d hd).2, ?_⟩
  intro hok
  unfold extract_day_step
  rw [if_neg hd]
  simp only [append_day_progress, hok, if_true]
  exact ⟨_, List.mem_append_right _ (List.mem_singleton_self _), rfl⟩

/-- Witness for C8 (amended): with all writes succeeding, processing
2024-03-01 emits append-sessions, append-players, then the checkpoint
write, and the sessions log ends up containing the day's entry. -/
theorem append_before_checkpoint_witness :
    (extract_day_step "2024-03-01" "2024-03-02" c9Oracle emptyRunState
      "2024-03-01").2 =
      [.appendSessions "2024-03-01T00:00:00Z" true,
       .appendPlayers "2024-03-01T00:00:00Z" true,
       .checkpointWrite ["2024-03-01"] true] ∧
    ∃ e ∈ (extract_day_step "2024-03-01" "2024-03-02" c9Oracle emptyRunState
      "2024-03-01").1.sessionsLog, e.date = some "2024-03-01T00:00:00Z" := by
  obtain ⟨h1, h2⟩ := append_before_checkpoint "2024-03-01" "2024-03-02"
    c9Oracle emptyRunState "2024-03-01" (by decide)
  exact ⟨by rw [h1]; decide, h2 rfl⟩

/-- An oracle whose progress-log appends fail (their exceptions are caught
with a warning) while the checkpoint write succeeds. -/
def c8Oracle : LoopOracle :=
  ⟨fun _ => [c2Session], fun _ => ["pd"], fun _ => false, fun _ => false,
   fun _ => true, fun _ => "t3"⟩

/-- C8 counterexample: when the log appends fail (caught, lines 110-116)
but the checkpoint write succeeds, the checkpoint marks 2024-03-01
processed although no corresponding entry exists in either progress log —
refuting "the orchestrator never marks a date processed in the checkpoint
without a corresponding entry having been written to the progress logs". -/
theorem checkpoint_without_log_entry_cex :
    ((extract_day_step "2024-03-01" "2024-03-02" c8Oracle emptyRunState
        "2024-03-01").1.checkpointFile.map CheckpointDoc.processed_dates) =
      some ["2024-03-01"] ∧
    (extract_day_step "2024-03-01" "2024-03-02" c8Oracle emptyRunState
      "2024-03-01").1.sessionsLog = [] ∧
    (extract_day_step "2024-03-01" "2024-03-02" c8Oracle emptyRunState
      "2024-03-01").1.playersLog = [] := by
  exact ⟨rfl, rfl, rfl⟩

/-! Section: Checkpoint write atomicity: `update_checkpoint` (lines 118-131) -/

/-- File-system operations at the granularity relevant to write atomicity:
a truncating open (`open(path, 'w')`), a completed write of serialized
bytes, and an atomic rename. -/
inductive FsOp where
  | openTrunc : String → FsOp
  | writeAll : String → String → FsOp
  | rename : String → String → FsOp
deriving DecidableEq

/-- Effect of one file operation on the file-system contents map. -/
def applyFsOp (fs : String → String) : FsOp → String → String
  | .openTrunc p => fun q => if q = p then "" else fs q
  | .writeAll p s => fun q => if q = p then fs p ++ s else fs q
  | .rename src dst => fun q =>
    if q = dst then fs src else if q = src then "" else fs q

def applyFsOps (fs : String → String) (ops : List FsOp) : String → String :=
  ops.foldl applyFsOp fs

/-- Serialization `json.dump(data, f)` of the checkpoint document in its
insertion order (the `indent=2` whitespace is immaterial here). -/
def checkpointDumps (c : CheckpointDoc) : String :=
  "\x7b\"range_start\": " ++ jsonQuote c.range_start ++
    ", \"range_end\": " ++ jsonQuote c.range_end ++
    ", \"processed_dates\": [" ++
    String.intercalate ", " (c.processed_dates.map jsonQuote) ++
    "], \"total_sessions\": " ++ toString c.total_sessions ++
    ", \"last_updated\": " ++ jsonQuote c.last_updated ++ "\x7d"

def checkpoint_path (runDir : String) : String := runDir ++ "/checkpoint.json"

/-- Writer `update_checkpoint(range_start, range_end, processed_dates,
total_sessions, run_dir)` at the file-operation level: build the checkpoint
dict, then `open(checkpoint_path, 'w')` — which truncates the file in
place — and `json.dump` the new serialization into it. There is no
temporary file and no rename; exceptions are caught and warned about. -/
def update_checkpoint_ops (rangeStart rangeEnd : String)
    (processed : List String) (total : Nat) (now : String) (runDir : String) :
    List FsOp :=
  [.openTrunc (checkpoint_path runDir),
   .writeAll (checkpoint_path runDir)
     (checkpointDumps ⟨rangeStart, rangeEnd, processed, total, now⟩)]

/-- The claim's notion of atomicity from the caller's perspective: after
any prefix of the write's file operations, a reader of `path` observes
either the complete old document or the complete new one. -/
def atomicOverwrite (ops : List FsOp) (fs : String → String)
    (path newDoc : String) : Prop :=
  ∀ k, applyFsOps fs (ops.take k) path = fs path ∨
    applyFsOps fs (ops.take k) path = newDoc

/-- C7 counterexample: for a concrete run directory holding a non-empty old
checkpoint, the in-place truncate-then-write of `update_checkpoint` has a
crash/read point (right after the truncating open) at which the checkpoint
file is empty — neither the old nor the new document — so the write is not
atomic from the caller's perspective. -/
theorem update_checkpoint_not_atomic_cex :
    ¬ atomicOverwrite
        (update_checkpoint_ops "2024-03-01" "2024-03-02" ["2024-03-01"] 1 "t4" "runs/r1")
        (fun p => if p = checkpoint_path "runs/r1" then "OLD-CHECKPOINT" else "")
        (checkpoint_path "runs/r1")
        (checkpointDumps ⟨"2024-03-01", "2024-03-02", ["2024-03-01"], 1, "t4"⟩) :=
  fun h => absurd (h 1) (by decide)

/-- C7 (amended): `update_checkpoint` overwrites the checkpoint in place:
its file operations are exactly a truncating open of `checkpoint.json`
followed by one write of the new serialization — no temporary location, no
rename — so between the truncate and the completed write a reader observes
an empty partial checkpoint, while after completion the file holds exactly
the new document. (`_safe_read_json` treats an unparsable checkpoint as
absent on the next load, so a torn write degrades to empty resume state
rather than an error.) -/
theorem update_checkpoint_in_place (rs re : String) (processed : List String)
    (total : Nat) (now : String) (runDir : String) (fs : String → String) :
    update_checkpoint_ops rs re processed total now runDir =
      [.openTrunc (checkpoint_path runDir),
       .writeAll (checkpoint_path runDir)
         (checkpointDumps ⟨rs, re, processed, total, now⟩)] ∧
    (∀ src dst,
      FsOp.rename src dst ∉ update_checkpoint_ops rs re processed total now runDir) ∧
    applyFsOps fs (update_checkpoint_ops rs re processed total now runDir)
      (checkpoint_path runDir) = checkpointDumps ⟨rs, re, processed, total, now⟩ ∧
    applyFsOps fs
      ((update_checkpoint_ops rs re processed total now runDir).take 1)
      (checkpoint_path runDir) = "" := by
  refine ⟨rfl, ?_, ?_, ?_⟩
  · intro src dst hmem
    simp [update_checkpoint_ops] at hmem
  · show ((fun q => if q = checkpoint_path runDir then
        (fun q => if q = checkpoint_path runDir then "" else fs q) (checkpoint_path runDir) ++
          checkpointDumps ⟨rs, re, processed, total, now⟩
      else (fun q => if q = checkpoint_path runDir then "" else fs q) q)
        (checkpoint_path runDir)) = _
    simp
  · show (fun q => if q = checkpoint_path runDir then "" else fs q)
      (checkpoint_path runDir) = ""
    simp

/-! Section: Cross-run merge: `combine_and_deduplicate` (update_mason_mount.py,
lines 94-135) and `remove_duplicate_sessions` (combine_runs.py, lines
55-80) -/

/-- A pandas DataFrame as these scripts use one: a header row of column
names and data rows aligned positionally with the header. Cells are CSV
scalars; `vnull` is pandas' NaN. -/
structure DF where
  cols : List String
  rows : List (List PVal)
deriving DecidableEq

/-- Lookup `row[c]` for a row aligned with `cols`: the cell at `c`'s position,
NaN when the column is absent or the row is short. -/
def getCell (cols : List String) (row : List PVal) (c : String) : PVal :=
  match cols.findIdx? (fun x => decide (x = c)) with
  | some i => row.getD i .vnull
  | none => .vnull

/-- The tuple of a row's values at the `subset` columns — the identity used
by `drop_duplicates(subset=...)`. -/
def rowKey (cols subset : List String) (row : List PVal) : List PVal :=
  subset.map (getCell cols row)

def pvalRank : PVal → Nat
  | .vbool _ => 0
  | .vnum _ => 1
  | .vstr _ => 2
  | .vnull => 3

/-- Cell comparison used by `sort_values`: NaN sorts last
(`na_position='last'`), strings code-point-lexicographically (which is
chronological for ISO dates), numbers numerically; the cross-type cases
(never hit by a homogeneous column) are ordered by rank to keep the
relation total. -/
def cellLe (x y : PVal) : Bool :=
  match x, y with
  | _, .vnull => true
  | .vnull, _ => false
  | .vbool a, .vbool b => !a || b
  | .vnum a, .vnum b => decide (a ≤ b)
  | .vstr a, .vstr b => strLe a b
  | x, y => decide (pvalRank x ≤ pvalRank y)

theorem cellLe_total (x y : PVal) : cellLe x y = true ∨ cellLe y x = true := by
  cases x <;> cases y <;> simp only [cellLe, pvalRank] <;>
    first
      | decide
      | (rename_i a b; cases a <;> cases b <;> decide)
      | (simp only [decide_eq_true_eq]; omega)
      | exact strLe_total _ _

theorem cellLe_trans {x y z : PVal} (h₁ : cellLe x y = true)
    (h₂ : cellLe y z = true) : cellLe x z = true := by
  cases x <;> cases y <;> cases z <;>
    simp only [cellLe, pvalRank] at h₁ h₂ ⊢ <;>
    first
      | rfl
      | decide
      | exact absurd h₁ (by decide)
      | exact absurd h₂ (by decide)
      | (simp only [decide_eq_true_eq] at h₁ h₂ ⊢; omega)
      | (rename_i a b c; cases a <;> cases b <;> cases c <;> simp_all)
      | exact strLe_trans h₁ h₂

/-- Sorting `df.sort_values(c)`: reorder rows by the `c` cell. pandas guarantees
only key-sortedness of the result (its default quicksort is unstable);
stable insertion sort is the reference model. -/
def sort_values (df : DF) (c : String) : DF :=
  let le := fun r1 r2 => cellLe (getCell df.cols r1 c) (getCell df.cols r2 c) = true
  { df with rows := df.rows.insertionSort le }

/-- Dedup `df.drop_duplicates(subset=subset, keep='first')`. -/
def drop_duplicates_subset (df : DF) (subset : List String) : DF :=
  { df with rows := dedupByKey (rowKey df.cols subset) df.rows [] }

/-- Dedup `df.drop_duplicates()` — whole-record equality. -/
def drop_duplicates_all (df : DF) : DF :=
  { df with rows := dedupByKey id df.rows [] }

/-- Assignment `df[c] = v` — broadcast a scalar into an existing column, or append a
new column on the right. -/
def set_col (df : DF) (c : String) (v : PVal) : DF :=
  if c ∈ df.cols then
    let i := df.cols.findIdx (fun x => decide (x = c))
    { df with rows := df.rows.map (fun row => row.set i v) }
  else
    { cols := df.cols ++ [c], rows := df.rows.map (fun row => row ++ [v]) }

/-- Align a row from `cols` to the column list `newCols`. -/
def reindexRow (cols : List String) (row : List PVal) (newCols : List String) :
    List PVal :=
  newCols.map (getCell cols row)

/-- Concatenation `pd.concat([df1, df2], ignore_index=True)`: with identical headers a
plain row append; otherwise the column union with NaN fill. -/
def concatDF (df1 df2 : DF) : DF :=
  if df1.cols = df2.cols then { cols := df1.cols, rows := df1.rows ++ df2.rows }
  else
    let cols := df1.cols ++ df2.cols.filter (fun c => decide (c ∉ df1.cols))
    { cols := cols,
      rows := df1.rows.map (fun r => reindexRow df1.cols r cols) ++
        df2.rows.map (fun r => reindexRow df2.cols r cols) }

/-- The composite identity columns of the cross-run pass. -/
def dupKeyCols : List String := ["session_date", "drill_id", "player_custom_id"]

/-- Source tagging of the existing frame (update_mason_mount.py lines
100-101): add `source_run = 'existing'` only when the column is absent. -/
def tagExisting (df : DF) : DF :=
  if "source_run" ∈ df.cols then df
  else set_col df "source_run" (.vstr "existing")

/-- The `if available_cols:` deduplication block (lines 115-126): dedup on
whichever of the three key columns exist; when none do, *no* deduplication
happens in this function. -/
def dedupAvailable (df : DF) : DF :=
  if dupKeyCols.filter (fun c => decide (c ∈ df.cols)) ≠ [] then
    drop_duplicates_subset df (dupKeyCols.filter (fun c => decide (c ∈ df.cols)))
  else df

/-- The chronological re-sort (lines 128-131). -/
def sortIfDate (df : DF) : DF :=
  if "session_date" ∈ df.cols then sort_values df "session_date" else df

/-- Merge `combine_and_deduplicate(existing_df, new_df)` (update_mason_mount.py
lines 94-135): tag sources (`find_new_run_csv`'s filesystem probe supplies
`newRunName`; `new_df['source_run']` is always assigned), concatenate, drop
duplicates on the available key columns, and sort chronologically when
`session_date` exists. -/
def combine_and_deduplicate (existing newdf : DF) (newRunName : String) : DF :=
  sortIfDate (dedupAvailable (concatDF (tagExisting existing)
    (set_col newdf "source_run" (.vstr newRunName))))

/-- Dedup `remove_duplicate_sessions(df)` (combine_runs.py lines 55-80): dedup on
the available key columns, falling back to whole-record equality when none
of them exist. -/
def remove_duplicate_sessions (df : DF) : DF :=
  if dupKeyCols.filter (fun c => decide (c ∈ df.cols)) = [] then
    drop_duplicates_all df
  else drop_duplicates_subset df (dupKeyCols.filter (fun c => decide (c ∈ df.cols)))

section MoreDedupLemmas

variable {α β : Type} (key : α → β) [DecidableEq β]

theorem dedupByKey_cons (x : α) (xs : List α) (seen : List β) :
    dedupByKey key (x :: xs) seen =
      if key x ∈ seen then dedupByKey key xs seen
      else x :: dedupByKey key xs (key x :: seen) := rfl

theorem dedupByKey_congr_seen : ∀ (l : List α) {s₁ s₂ : List β},
    (∀ b, b ∈ s₁ ↔ b ∈ s₂) → dedupByKey key l s₁ = dedupByKey key l s₂
  | [], _, _, _ => rfl
  | x :: xs, s₁, s₂, h => by
    rw [dedupByKey_cons, dedupByKey_cons]
    by_cases hx : key x ∈ s₁
    · rw [if_pos hx, if_pos ((h _).mp hx)]
      exact dedupByKey_congr_seen xs h
    · rw [if_neg hx, if_neg (fun hc => hx ((h _).mpr hc))]
      congr 1
      refine dedupByKey_congr_seen xs ?_
      intro b
      simp only [List.mem_cons]
      exact or_congr Iff.rfl (h b)

theorem dedupByKey_append : ∀ (l₁ l₂ : List α) (seen : List β),
    ((l₁.map key).Nodup) → (∀ x ∈ l₁, key x ∉ seen) →
    dedupByKey key (l₁ ++ l₂) seen =
      l₁ ++ dedupByKey key l₂ (l₁.map key ++ seen)
  | [], l₂, seen, _, _ => by simp
  | x :: l₁, l₂, seen, hnd, hseen => by
    rw [List.cons_append, dedupByKey_cons,
      if_neg (hseen x (List.mem_cons_self _ _))]
    simp only [List.map_cons, List.nodup_cons] at hnd
    have hseen' : ∀ y ∈ l₁, key y ∉ key x :: seen := by
      intro y hy
      simp only [List.mem_cons]
      rintro (hk | hk)
      · exact hnd.1 (hk ▸ List.mem_map_of_mem key hy)
      · exact hseen y (List.mem_cons_of_mem _ hy) hk
    rw [dedupByKey_append l₁ l₂ (key x :: seen) hnd.2 hseen', List.cons_append]
    congr 2
    apply dedupByKey_congr_seen
    intro b
    simp only [List.map_cons, List.mem_append, List.mem_cons]
    tauto

theorem dedupByKey_eq_filter : ∀ (l : List α) (seen : List β),
    ((l.map key).Nodup) →
    dedupByKey key l seen = l.filter (fun x => decide (key x ∉ seen))
  | [], _, _ => rfl
  | x :: xs, seen, hnd => by
    simp only [List.map_cons, List.nodup_cons] at hnd
    rw [dedupByKey_cons]
    by_cases hx : key x ∈ seen
    · rw [if_pos hx, List.filter_cons_of_neg (by simpa using hx)]
      exact dedupByKey_eq_filter xs seen hnd.2
    · rw [if_neg hx, List.filter_cons_of_pos (by simpa using hx)]
      congr 1
      rw [dedupByKey_eq_filter xs (key x :: seen) hnd.2]
      apply List.filter_congr
      intro y hy
      simp only [decide_eq_decide, List.mem_cons]
      constructor
      · intro h hc
        exact h (Or.inr hc)
      · rintro h (hc | hc)
        · exact hnd.1 (hc ▸ List.mem_map_of_mem key hy)
        · exact h hc

end MoreDedupLemmas

theorem getCell_set_findIdx (C : List String) (c k : String) (hc : c ∈ C)
    (hk : k ≠ c) (row : List PVal) (v : PVal) :
    getCell C (row.set (C.findIdx (fun x => decide (x = c))) v) k =
      getCell C row k := by
  unfold getCell
  cases hj : C.findIdx? (fun x => decide (x = k)) with
  | none => rfl
  | some j =>
    obtain ⟨hjlt, hpj, -⟩ := List.findIdx?_eq_some_iff_getElem.mp hj
    have hCj : C[j] = k := of_decide_eq_true hpj
    have hilt : C.findIdx (fun x => decide (x = c)) < C.length :=
      List.findIdx_lt_length_of_exists ⟨c, hc, by simp⟩
    have hCi : C[C.findIdx (fun x => decide (x = c))] = c :=
      of_decide_eq_true (List.findIdx_getElem (w := hilt))
    have hij : C.findIdx (fun x => decide (x = c)) ≠ j := by
      intro h
      subst h
      rw [hCi] at hCj
      exact hk hCj.symm
    simp only [List.getD_eq_getElem?_getD]
    rw [List.getElem?_set_ne hij]

theorem rowKey_set_findIdx (C subset : List String) (c : String) (hc : c ∈ C)
    (hsub : c ∉ subset) (row : List PVal) (v : PVal) :
    rowKey C subset (row.set (C.findIdx (fun x => decide (x = c))) v) =
      rowKey C subset row := by
  unfold rowKey
  apply List.map_congr_left
  intro k hk
  exact getCell_set_findIdx C c k hc (fun h => hsub (h ▸ hk)) row v

/-- C6 (amended): with all three key columns (and `source_run`) present in
both frames, `combine_and_deduplicate` keeps every existing row plus
exactly the new rows whose (session_date, drill_id, player_custom_id) key
is not already present — first wins, so the overlapping keys' surviving
rows come from the existing dataset — and chronologically re-sorts by
session_date; merging 100 existing with 20 new rows of which 5 share a key
yields 115 rows. When none of the three key columns is present,
`combine_and_deduplicate` performs NO deduplication at all (see the
counterexample); the whole-record fallback exists only in
`combine_runs.remove_duplicate_sessions`, whose fallback behaviour is the
final conjunct. -/
theorem combine_and_deduplicate_first_wins
    (existing newdf : DF) (run : String)
    (hcn : newdf.cols = existing.cols)
    (hsr : "source_run" ∈ existing.cols)
    (hkeys : ∀ c ∈ dupKeyCols, c ∈ existing.cols)
    (hnd1 : (existing.rows.map (rowKey existing.cols dupKeyCols)).Nodup)
    (hnd2 : (newdf.rows.map (rowKey existing.cols dupKeyCols)).Nodup)
    (hlen1 : existing.rows.length = 100)
    (hlen2 : newdf.rows.length = 20)
    (hover : (newdf.rows.filter (fun r =>
      decide (rowKey existing.cols dupKeyCols r ∈
        existing.rows.map (rowKey existing.cols dupKeyCols)))).length = 5) :
    (combine_and_deduplicate existing newdf run).rows.length = 115 ∧
    List.Sorted
      (fun r1 r2 => cellLe (getCell existing.cols r1 "session_date")
        (getCell existing.cols r2 "session_date") = true)
      (combine_and_deduplicate existing newdf run).rows ∧
    (combine_and_deduplicate existing newdf run).rows.Perm
      (existing.rows ++
        ((newdf.rows.filter (fun r =>
          decide (rowKey existing.cols dupKeyCols r ∉
            existing.rows.map (rowKey existing.cols dupKeyCols)))).map
          (fun row => row.set
            (newdf.cols.findIdx (fun x => decide (x = "source_run")))
            (.vstr run)))) ∧
    (∀ r ∈ (combine_and_deduplicate existing newdf run).rows,
      rowKey existing.cols dupKeyCols r ∈
        existing.rows.map (rowKey existing.cols dupKeyCols) →
      r ∈ existing.rows) ∧
    (∀ df : DF, (∀ c ∈ dupKeyCols, c ∉ df.cols) →
      (remove_duplicate_sessions df).rows = dedupByKey id df.rows []) := by
  have hsrn : "source_run" ∈ newdf.cols := by rw [hcn]; exact hsr
  have hsrkeys : "source_run" ∉ dupKeyCols := by decide
  -- the tag function applied to every new row
  have htag : set_col newdf "source_run" (.vstr run) =
      ⟨newdf.cols, newdf.rows.map (fun row => row.set
        (newdf.cols.findIdx (fun x => decide (x = "source_run")))
        (.vstr run))⟩ := by
    unfold set_col
    rw [if_pos hsrn]
  have hKtag : ∀ row : List PVal,
      rowKey existing.cols dupKeyCols (row.set
        (newdf.cols.findIdx (fun x => decide (x = "source_run"))) (.vstr run)) =
      rowKey existing.cols dupKeyCols row := by
    intro row
    rw [hcn]
    exact rowKey_set_findIdx existing.cols dupKeyCols "source_run" hsr hsrkeys row _
  -- stage 1: the concatenation is a plain row append
  have hconcat : concatDF (tagExisting existing)
      (set_col newdf "source_run" (.vstr run)) =
      ⟨existing.cols, existing.rows ++ newdf.rows.map (fun row => row.set
        (newdf.cols.findIdx (fun x => decide (x = "source_run")))
        (.vstr run))⟩ := by
    unfold tagExisting
    rw [if_pos hsr, htag]
    unfold concatDF
    rw [if_pos hcn.symm]
  -- stage 2: all three key columns are available, so dedup runs on them
  have hfilterkeys : dupKeyCols.filter
      (fun c => decide (c ∈ existing.cols)) = dupKeyCols :=
    List.filter_eq_self.mpr (fun c hcc => by simpa using hkeys c hcc)
  have htagnd : ((newdf.rows.map (fun row => row.set
      (newdf.cols.findIdx (fun x => decide (x = "source_run")))
      (.vstr run))).map (rowKey existing.cols dupKeyCols)).Nodup := by
    rw [List.map_map]
    have : (rowKey existing.cols dupKeyCols) ∘ (fun row : List PVal => row.set
        (newdf.cols.findIdx (fun x => decide (x = "source_run")))
        (.vstr run)) = rowKey existing.cols dupKeyCols := by
      funext row
      exact hKtag row
    rw [this]
    exact hnd2
  have hdd : dedupByKey (rowKey existing.cols dupKeyCols)
      (existing.rows ++ newdf.rows.map (fun row => row.set
        (newdf.cols.findIdx (fun x => decide (x = "source_run")))
        (.vstr run))) [] =
      existing.rows ++ (newdf.rows.filter (fun r =>
        decide (rowKey existing.cols dupKeyCols r ∉
          existing.rows.map (rowKey existing.cols dupKeyCols)))).map
        (fun row => row.set
          (newdf.cols.findIdx (fun x => decide (x = "source_run")))
          (.vstr run)) := by
    rw [dedupByKey_append _ _ _ _ hnd1 (by simp), List.append_nil]
    congr 1
    rw [dedupByKey_eq_filter _ _ _ htagnd, List.filter_map]
    congr 1
    apply List.filter_congr
    intro r hr
    simp only [Function.comp_apply, hKtag r]
  have hdedupav : ∀ R : List (List PVal),
      dedupAvailable ⟨existing.cols, R⟩ =
        ⟨existing.cols, dedupByKey (rowKey existing.cols dupKeyCols) R []⟩ := by
    intro R
    unfold dedupAvailable
    dsimp only
    rw [hfilterkeys, if_pos (by decide)]
    unfold drop_duplicates_subset
    dsimp only
  -- stage 3: session_date exists, so the result is the insertion sort
  have hout : combine_and_deduplicate existing newdf run =
      ⟨existing.cols, (existing.rows ++ (newdf.rows.filter (fun r =>
        decide (rowKey existing.cols dupKeyCols r ∉
          existing.rows.map (rowKey existing.cols dupKeyCols)))).map
        (fun row => row.set
          (newdf.cols.findIdx (fun x => decide (x = "source_run")))
          (.vstr run))).insertionSort
        (fun r1 r2 => cellLe (getCell existing.cols r1 "session_date")
          (getCell existing.cols r2 "session_date") = true)⟩ := by
    unfold combine_and_deduplicate
    rw [hconcat, hdedupav _, hdd]
    unfold sortIfDate
    dsimp only
    rw [if_pos (hkeys "session_date" (by decide))]
    unfold sort_values
    dsimp only
  have houtrows : (combine_and_deduplicate existing newdf run).rows =
      (existing.rows ++ (newdf.rows.filter (fun r =>
        decide (rowKey existing.cols dupKeyCols r ∉
          existing.rows.map (rowKey existing.cols dupKeyCols)))).map
        (fun row => row.set
          (newdf.cols.findIdx (fun x => decide (x = "source_run")))
          (.vstr run))).insertionSort
        (fun r1 r2 => cellLe (getCell existing.cols r1 "session_date")
          (getCell existing.cols r2 "session_date") = true) := by
    rw [hout]
  -- the 15 genuinely new rows
  have hflen : (newdf.rows.filter (fun r =>
      decide (rowKey existing.cols dupKeyCols r ∉
        existing.rows.map (rowKey existing.cols dupKeyCols)))).length = 15 := by
    have hsplit := List.length_eq_length_filter_add
      (l := newdf.rows) (fun r => decide (rowKey existing.cols dupKeyCols r ∈
        existing.rows.map (rowKey existing.cols dupKeyCols)))
    rw [hlen2, hover] at hsplit
    have hcongr : newdf.rows.filter (fun r =>
        !(decide (rowKey existing.cols dupKeyCols r ∈
          existing.rows.map (rowKey existing.cols dupKeyCols)))) =
        newdf.rows.filter (fun r =>
        decide (rowKey existing.cols dupKeyCols r ∉
          existing.rows.map (rowKey existing.cols dupKeyCols))) := by
      apply List.filter_congr
      intro r hr
      simp only [decide_not]
    rw [hcongr] at hsplit
    omega
  refine ⟨?_, ?_, ?_, ?_, ?_⟩
  · rw [houtrows, List.length_insertionSort, List.length_append,
      List.length_map, hlen1, hflen]
  · rw [houtrows]
    haveI hto : IsTotal (List PVal)
        (fun r1 r2 => cellLe (getCell existing.cols r1 "session_date")
          (getCell existing.cols r2 "session_date") = true) :=
      ⟨fun a b => cellLe_total _ _⟩
    haveI htr : IsTrans (List PVal)
        (fun r1 r2 => cellLe (getCell existing.cols r1 "session_date")
          (getCell existing.cols r2 "session_date") = true) :=
      ⟨fun a b c h₁ h₂ => cellLe_trans h₁ h₂⟩
    exact List.sorted_insertionSort _ _
  · rw [houtrows]
    exact List.perm_insertionSort _ _
  · intro r hr hkey
    rw [houtrows, List.mem_insertionSort] at hr
    rcases List.mem_append.mp hr with hr' | hr'
    · exact hr'
    · exfalso
      obtain ⟨r0, hr0, rfl⟩ := List.mem_map.mp hr'
      obtain ⟨-, hpred⟩ := List.mem_filter.mp hr0
      rw [hKtag r0] at hkey
      exact (of_decide_eq_true hpred) hkey
  · intro df hnone
    have hfil : dupKeyCols.filter (fun c => decide (c ∈ df.cols)) = [] := by
      rw [List.filter_eq_nil_iff]
      intro c hcc
      simpa using hnone c hcc
    unfold remove_duplicate_sessions
    rw [hfil, if_pos rfl]
    rfl

def dfNoKeyA : DF :=
  ⟨["x", "source_run"],
   [[.vstr "a", .vstr "existing"], [.vstr "a", .vstr "existing"]]⟩

def dfNoKeyB : DF := ⟨["x", "source_run"], []⟩

/-- C6 counterexample: when none of the three key columns is present,
`combine_and_deduplicate` performs no deduplication at all — two exactly
identical rows both survive the merge — whereas the claimed fallback to
exact whole-record equality (shown in the second conjunct as
`drop_duplicates_all` on the same concatenation) would keep only one. -/
theorem combine_and_deduplicate_no_fallback_cex :
    (combine_and_deduplicate dfNoKeyA dfNoKeyB "run2").rows =
      [[.vstr "a", .vstr "existing"], [.vstr "a", .vstr "existing"]] ∧
    (drop_duplicates_all (concatDF (tagExisting dfNoKeyA)
        (set_col dfNoKeyB "source_run" (.vstr "run2")))).rows =
      [[.vstr "a", .vstr "existing"]] :=
  ⟨rfl, rfl⟩

def c6Cols : List String :=
  ["session_date", "drill_id", "player_custom_id", "source_run"]

/-- 100 existing rows with pairwise-distinct drill ids. -/
def c6Existing : DF :=
  ⟨c6Cols, (List.range 100).map
    (fun i => [.vstr "2024-01-01", .vnum i, .vstr "p1", .vstr "existing"])⟩

/-- 20 new rows, 5 of which (drill ids 95-99) share a key with existing. -/
def c6New : DF :=
  ⟨c6Cols, (List.range 20).map
    (fun i => [.vstr "2024-01-01", .vnum (95 + i), .vstr "p1", .vstr "new"])⟩

/-- Witness for C6 (amended) at the 100-existing/20-new/5-overlap instance:
the merge yields 115 rows. -/
theorem combine_and_deduplicate_first_wins_witness :
    (combine_and_deduplicate c6Existing c6New "20240401_000000").rows.length = 115 :=
  (combine_and_deduplicate_first_wins c6Existing c6New "20240401_000000"
    rfl (by decide) (by decide) (by decide) (by decide) (by decide) (by decide)
    (by decide)).1

end Statsport
